import Mathlib

/-!
Verification of the liquid-democracy voting server core.

This file gives a shallow embedding, in Lean, of the server's core voting
logic and proves properties of it:

* `RedisVotingOps` (src/utils/redisKeys.js): the ephemeral voting store
  operations `castVote`, `setDelegation`, `removeVote`, `removeDelegation`,
  the read operations, and `detectCyclesDFS`.
* `DelegationEngine` (src/utils/delegationEngine.js): `buildDelegationGraph`,
  `resolveChainForUser`, `resolveAllChains`, `calculateVotingPowers`,
  `resolveBulkDelegations`.
* `FinalVoteEngine` (src/utils/finalVoteEngine.js): `calculateWeightedResults`
  and the audit-record behaviour of `calculateFinalResults` / `saveErrorAudit`.
* `RedisBackupManager` (src/utils/redisBackup.js): `createSnapshot` and
  `restoreFromSnapshot`.

Modelling conventions:

* Redis hashes and JS objects are association lists with set-or-append
  assignment (`jsSet`), matching JS property insertion order; Redis field
  order is unspecified, and no theorem below depends on entry order.
* Redis sets are lists; `sadd` appends when absent.
* Wallet addresses are strings; JS `toLowerCase` is modelled for ASCII
  (wallet addresses are hex strings, so this is exact on real inputs).
* Vote option numbers are stored in Redis as decimal strings and parsed
  back with `parseInt`; that round trip is the identity on naturals, so the
  votes hash is modelled as wallet → Nat directly.
* Database reads/writes (Supabase) are modelled by passing the read value
  in as an argument and returning the written record as part of the result.
-/

/-- Wallet addresses (and other Redis keys/values) are strings. -/
abbrev Wallet := String

/-- ASCII lowercasing of one character, as JS `toLowerCase` acts on the
ASCII range (wallet addresses are `0x`-prefixed hex strings). -/
def lowerChar (c : Char) : Char :=
  if c.isUpper then Char.ofNat (c.toNat + 32) else c

/-- JS `String.prototype.toLowerCase`, modelled on the ASCII range. -/
def toLowerCase (s : String) : String :=
  String.mk (s.data.map lowerChar)

/-- JS object property assignment `m[k] = v` (also Redis `HSET`): overwrite
the existing field in place, or append a new field at the end. -/
def jsSet {α β : Type} [DecidableEq α] : List (α × β) → α → β → List (α × β)
  | [], k, v => [(k, v)]
  | (k0, v0) :: rest, k, v =>
    if k0 = k then (k0, v) :: rest else (k0, v0) :: jsSet rest k v

/-- JS object property read `m[k]` (also Redis `HGET`): the value of the
field, or `none` when the field is absent. -/
def hget {α β : Type} [DecidableEq α] : List (α × β) → α → Option β
  | [], _ => none
  | (k0, v0) :: rest, k => if k0 = k then some v0 else hget rest k

/-- Redis `HDEL` (also JS `delete m[k]`): remove the field. -/
def hdel {α β : Type} [DecidableEq α] (m : List (α × β)) (k : α) : List (α × β) :=
  m.filter (fun p => p.1 ≠ k)

/-- Redis `SADD`: add a member to a set, a no-op when already present. -/
def sadd (s : List Wallet) (w : Wallet) : List Wallet :=
  if w ∈ s then s else s ++ [w]

/-- Field names of a hash / key set of a JS object. -/
def keysOf {α β : Type} (m : List (α × β)) : List α :=
  m.map Prod.fst

/-- Sum of all values of a hash with natural-number values. -/
def valuesSum {α : Type} (m : List (α × Nat)) : Nat :=
  (m.map Prod.snd).sum

/-- Per-proposal ephemeral voting state, one instance of the Redis key
namespace of `REDIS_KEYS` (src/utils/redisKeys.js): the `votes` hash
(wallet → option number), the `delegations` hash (delegator → delegate),
the `participants` set, and the `status` / `deadline` strings.  The unused
`vote_weights`, `chains` and `lock` keys and the cooldown keys are not
modelled; no claim concerns them. -/
structure Store where
  votes : List (Wallet × Nat)
  delegations : List (Wallet × Wallet)
  participants : List Wallet
  status : Option String := none
  deadline : Option String := none
deriving DecidableEq

/-- `RedisVotingOps.castVote`: set the wallet's vote, add the wallet to the
participant set, and remove any existing delegation (three Redis writes on
the lowercased wallet key). -/
def castVote (s : Store) (userWallet : Wallet) (optionNumber : Nat) : Store :=
  let walletKey := toLowerCase userWallet
  { s with
    votes := jsSet s.votes walletKey optionNumber,
    participants := sadd s.participants walletKey,
    delegations := hdel s.delegations walletKey }

/-- `RedisVotingOps.setDelegation`: set the delegator's delegation, add the
delegator to the participant set, and remove any existing vote. -/
def setDelegation (s : Store) (delegatorWallet delegateWallet : Wallet) : Store :=
  let delegatorKey := toLowerCase delegatorWallet
  let delegateKey := toLowerCase delegateWallet
  { s with
    delegations := jsSet s.delegations delegatorKey delegateKey,
    participants := sadd s.participants delegatorKey,
    votes := hdel s.votes delegatorKey }

/-- `RedisVotingOps.removeVote`: delete the wallet's entry from the votes
hash. -/
def removeVote (s : Store) (userWallet : Wallet) : Store :=
  { s with votes := hdel s.votes (toLowerCase userWallet) }

/-- `RedisVotingOps.removeDelegation`: delete the wallet's entry from the
delegations hash. -/
def removeDelegation (s : Store) (userWallet : Wallet) : Store :=
  { s with delegations := hdel s.delegations (toLowerCase userWallet) }

/-- `RedisVotingOps.getUserVote`: read the wallet's vote (the stored string
is parsed back with `parseInt`, the identity on naturals). -/
def getUserVote (s : Store) (userWallet : Wallet) : Option Nat :=
  hget s.votes (toLowerCase userWallet)

/-- `RedisVotingOps.getUserDelegation`: read the wallet's delegation. -/
def getUserDelegation (s : Store) (userWallet : Wallet) : Option Wallet :=
  hget s.delegations (toLowerCase userWallet)

/-- One entry step of `getAllVotes`: lowercase the wallet key and store the
`parseInt`-converted option. -/
def lowerSetV (acc : List (Wallet × Nat)) (p : Wallet × Nat) : List (Wallet × Nat) :=
  jsSet acc (toLowerCase p.1) p.2

/-- `RedisVotingOps.getAllVotes`: `HGETALL` on the votes hash, rebuilding a
JS object with lowercased wallet keys and `parseInt`-converted values. -/
def getAllVotes (votes : List (Wallet × Nat)) : List (Wallet × Nat) :=
  votes.foldl lowerSetV []

/-- One entry step of `getAllDelegations`: lowercase both wallet sides. -/
def lowerSetD (acc : List (Wallet × Wallet)) (p : Wallet × Wallet) : List (Wallet × Wallet) :=
  jsSet acc (toLowerCase p.1) (toLowerCase p.2)

/-- `RedisVotingOps.getAllDelegations`: `HGETALL` on the delegations hash,
rebuilding a JS object with both sides lowercased. -/
def getAllDelegations (delegations : List (Wallet × Wallet)) : List (Wallet × Wallet) :=
  delegations.foldl lowerSetD []

/-- `RedisVotingOps.getAllParticipants`: `SMEMBERS` on the participant set. -/
def getAllParticipants (s : Store) : List Wallet :=
  s.participants

/-- Result record of `RedisVotingOps.detectCyclesDFS`: `hasCycle`, the
optional `cyclePath`, and the optional `reason` string. -/
structure CycleResult where
  hasCycle : Bool
  cyclePath : Option (List Wallet) := none
  reason : Option String := none
deriving DecidableEq

/-- The cycle-found result built inside `detectCyclesDFS` when the walk
reaches the original delegator. -/
def cycleFound (cyclePath : List Wallet) : CycleResult :=
  { hasCycle := true
    cyclePath := some cyclePath
    reason := some ("Circular delegation detected: " ++ String.intercalate " → " cyclePath) }

/-- The result `detectCyclesDFS` returns when the hop budget is exhausted. -/
def chainTooLong : CycleResult :=
  { hasCycle := true
    reason := some "Delegation chain too long (possible infinite loop)" }

/-- One `while (maxHops-- > 0)` loop of `detectCyclesDFS`: `fuel` is the
remaining `maxHops` budget; on a `break` (revisit of a wallet already seen
in this walk, or dead end) the loop falls through to the post-loop
`maxHops <= 0` check, so a break on the last budgeted iteration is also
reported as "chain too long". -/
def dfsLoop (sim : List (Wallet × Wallet)) (delegator : Wallet) :
    Nat → List Wallet → List Wallet → Wallet → CycleResult
  | 0, _, _, _ => chainTooLong
  | fuel + 1, visited, path, current =>
    if current ∈ visited then
      if fuel = 0 then chainTooLong else { hasCycle := false }
    else
      match hget sim current with
      | none => if fuel = 0 then chainTooLong else { hasCycle := false }
      | some next =>
        if next = delegator then cycleFound (path ++ [next])
        else dfsLoop sim delegator fuel (current :: visited) (path ++ [next]) next

/-- `RedisVotingOps.detectCyclesDFS`: normalize both wallets, reject
self-delegation as a trivial cycle, otherwise simulate adding the edge
delegator → target to the current delegations and walk forward from the
target for at most 100 hops looking for the delegator. -/
def detectCyclesDFS (delegations : List (Wallet × Wallet))
    (delegatorWallet targetWallet : Wallet) : CycleResult :=
  let delegator := toLowerCase delegatorWallet
  let target := toLowerCase targetWallet
  if delegator = target then
    { hasCycle := true
      cyclePath := some [delegator]
      reason := some "Cannot delegate to yourself" }
  else
    let allDelegations := getAllDelegations delegations
    let simulatedDelegations := jsSet allDelegations delegator target
    dfsLoop simulatedDelegations delegator 100 [] [target] target

/-- The delegation route handler (src/routes/votingRoutes.js, POST
`/:id/delegate`), restricted to its effect on the voting store: it runs
`detectCyclesDFS` and, on `hasCycle`, responds 400 *before* any store
write; only otherwise does it call `setDelegation`.  (The preceding
validation and rate-limit steps only read, and the cooldown write happens
after `setDelegation` on the success path only.)  Returns the resulting
store and whether the delegation was accepted. -/
def delegateRoute (s : Store) (userWallet targetWallet : Wallet) : Store × Bool :=
  let cycleCheck := detectCyclesDFS s.delegations userWallet targetWallet
  if cycleCheck.hasCycle then (s, false)
  else (setDelegation s userWallet targetWallet, true)

/-- Result of `DelegationEngine.resolveChainForUser`: the final (sink)
delegate, the visited path, and the recorded path length. -/
structure ChainResult where
  finalDelegate : Wallet
  path : List Wallet
  length : Nat
deriving DecidableEq

/-- One `while (steps < MAX_CHAIN_LENGTH)` loop of `resolveChainForUser`:
`fuel` is the number of remaining allowed steps (`MAX_CHAIN_LENGTH - steps`).
The walk stops on a missing outgoing delegation (a sink), on a revisit
(defensive cycle check), or when the step budget is exhausted. -/
def chainLoop (delegations : List (Wallet × Wallet)) :
    Nat → List Wallet → List Wallet → Wallet → ChainResult
  | 0, _, path, current => ⟨current, path, path.length⟩
  | fuel + 1, visited, path, current =>
    match hget delegations current with
    | none => ⟨current, path, path.length⟩
    | some nextDelegate =>
      if nextDelegate ∈ visited then ⟨current, path, path.length⟩
      else chainLoop delegations fuel (nextDelegate :: visited)
        (path ++ [nextDelegate]) nextDelegate

/-- `DelegationEngine.resolveChainForUser`: follow the delegation chain from
`startWallet` for at most `MAX_CHAIN_LENGTH = 100` steps. -/
def resolveChainForUser (startWallet : Wallet)
    (delegations : List (Wallet × Wallet)) : ChainResult :=
  chainLoop delegations 100 [startWallet] [startWallet] startWallet

/-- Output of `DelegationEngine.buildDelegationGraph`: the normalized
adjacency object, the reverse-edge object, and the number of delegators. -/
structure DelegationGraph where
  delegations : List (Wallet × Wallet)
  incomingEdges : List (Wallet × List Wallet)
  size : Nat
deriving DecidableEq

/-- One entry step of `buildDelegationGraph`: add the normalized edge to the
adjacency object and record the reverse edge. -/
def graphStep (acc : List (Wallet × Wallet) × List (Wallet × List Wallet))
    (p : Wallet × Wallet) : List (Wallet × Wallet) × List (Wallet × List Wallet) :=
  let normalizedDelegator := toLowerCase p.1
  let normalizedDelegate := toLowerCase p.2
  (jsSet acc.1 normalizedDelegator normalizedDelegate,
   jsSet acc.2 normalizedDelegate
     ((hget acc.2 normalizedDelegate).getD [] ++ [normalizedDelegator]))

/-- `DelegationEngine.buildDelegationGraph`: rebuild the delegation map with
lowercased keys and values and collect incoming edges per delegate. -/
def buildDelegationGraph (delegationMap : List (Wallet × Wallet)) : DelegationGraph :=
  let built := delegationMap.foldl graphStep ([], [])
  { delegations := built.1
    incomingEdges := built.2
    size := (keysOf built.1).length }

/-- Output of `DelegationEngine.resolveAllChains`: the final delegate per
delegator, the per-delegator audit entries (path and length), and the
longest chain length. -/
structure ResolvedChains where
  delegationResolution : List (Wallet × Wallet)
  auditTrail : List (Wallet × (List Wallet × Nat))
  longestChainLength : Nat
deriving DecidableEq

/-- One delegator step of `resolveAllChains`. -/
def chainsStep (delegations : List (Wallet × Wallet)) (acc : ResolvedChains)
    (delegator : Wallet) : ResolvedChains :=
  let chainResult := resolveChainForUser delegator delegations
  { delegationResolution :=
      jsSet acc.delegationResolution delegator chainResult.finalDelegate
    auditTrail :=
      jsSet acc.auditTrail delegator (chainResult.path, chainResult.length)
    longestChainLength := max acc.longestChainLength chainResult.length }

/-- `DelegationEngine.resolveAllChains`: resolve the chain of every
delegator (every key of the graph's delegation object). -/
def resolveAllChains (delegations : List (Wallet × Wallet)) : ResolvedChains :=
  (keysOf delegations).foldl (chainsStep delegations)
    { delegationResolution := [], auditTrail := [], longestChainLength := 1 }

/-- The `votingPowers[w] = (votingPowers[w] || 0) + 1` step of
`calculateVotingPowers` (for naturals, `|| 0` is `getD 0`). -/
def bumpPower (m : List (Wallet × Nat)) (w : Wallet) : List (Wallet × Nat) :=
  jsSet m w ((hget m w).getD 0 + 1)

/-- `DelegationEngine.calculateVotingPowers`: every delegator contributes one
unit to their final delegate, every direct voter (key of the votes map)
contributes one unit to themselves, then zero-power entries are dropped. -/
def calculateVotingPowers (delegationResolution : List (Wallet × Wallet))
    (votesMap : List (Wallet × Nat)) : List (Wallet × Nat) :=
  let step1 := delegationResolution.foldl (fun acc p => bumpPower acc p.2) []
  let step2 := (keysOf votesMap).foldl bumpPower step1
  step2.filter (fun p => p.2 ≠ 0)

/-- The parts of the Resolution Record produced by
`DelegationEngine.resolveBulkDelegations` that the claims concern (the
computed-at timestamp and raw audit trail JSON are omitted). -/
structure Resolution where
  delegationResolution : List (Wallet × Wallet)
  votingPowers : List (Wallet × Nat)
  totalParticipants : Nat
  directVoters : Nat
  delegators : Nat
  longestChain : Nat
deriving DecidableEq

/-- `DelegationEngine.resolveBulkDelegations`: load delegations, votes and
participants from the store, resolve all chains, and compute voting powers.
The JS truthiness test `!delegationMap[wallet.toLowerCase()]` used to count
direct voters is an absence test here (delegate values are wallet strings,
never the empty string). -/
def resolveBulkDelegations (s : Store) : Resolution :=
  let delegationMap := getAllDelegations s.delegations
  let votesMap := getAllVotes s.votes
  let participants := getAllParticipants s
  let directVoters :=
    participants.filter (fun w => hget delegationMap (toLowerCase w) = none)
  let delegationGraph := buildDelegationGraph delegationMap
  let resolvedChains := resolveAllChains delegationGraph.delegations
  let votingPowers :=
    calculateVotingPowers resolvedChains.delegationResolution votesMap
  { delegationResolution := resolvedChains.delegationResolution
    votingPowers := votingPowers
    totalParticipants := participants.length
    directVoters := directVoters.length
    delegators := (keysOf delegationMap).length
    longestChain := resolvedChains.longestChainLength }

/-- One declared option of a proposal (`proposal_options` row). -/
structure ProposalOption where
  option_number : Nat
  option_text : String
deriving DecidableEq

/-- The part of a proposal row that `calculateFinalResults` consumes
(title and deadline only feed display fields and are omitted). -/
structure Proposal where
  options : List ProposalOption
deriving DecidableEq

/-- Output of `FinalVoteEngine.calculateWeightedResults`. -/
structure WeightedResults where
  optionTallies : List (Nat × Nat)
  voterBreakdown : List (Wallet × (Nat × Nat))
  totalVotingPower : Nat
  totalVotesCast : Nat
  totalUniqueVoters : Nat
  winningOption : Option Nat
deriving DecidableEq

/-- The `votingPowers[normalizedWallet] || 1` lookup of
`calculateWeightedResults`: default to 1 when the wallet is absent from the
power map (JS `||` also maps a stored 0 to 1). -/
def powerOf (votingPowers : List (Wallet × Nat)) (w : Wallet) : Nat :=
  match hget votingPowers w with
  | some p => if p = 0 then 1 else p
  | none => 1

/-- One declared option of the tally-initialization loop. -/
def initStep (m : List (Nat × Nat)) (opt : ProposalOption) : List (Nat × Nat) :=
  jsSet m opt.option_number 0

/-- The option-tally initialization loop of `calculateWeightedResults`:
every declared option starts at tally 0. -/
def initTallies (proposalOptions : List ProposalOption) : List (Nat × Nat) :=
  proposalOptions.foldl initStep []

/-- Accumulator of the per-vote loop of `calculateWeightedResults`. -/
structure VoteFoldState where
  optionTallies : List (Nat × Nat)
  voterBreakdown : List (Wallet × (Nat × Nat))
  totalVotesCast : Nat
  totalUniqueVoters : Nat
deriving DecidableEq

/-- One iteration of the per-vote loop: look up the voter's power, add it to
the chosen option's tally (creating the entry at 0 if absent, also for
options not in the declared list), record the breakdown entry, and bump the
cast-power total and voter count. -/
def processVote (votingPowers : List (Wallet × Nat)) (st : VoteFoldState)
    (v : Wallet × Nat) : VoteFoldState :=
  let normalizedWallet := toLowerCase v.1
  let votingPower := powerOf votingPowers normalizedWallet
  { optionTallies :=
      jsSet st.optionTallies v.2 ((hget st.optionTallies v.2).getD 0 + votingPower)
    voterBreakdown := jsSet st.voterBreakdown normalizedWallet (votingPower, v.2)
    totalVotesCast := st.totalVotesCast + votingPower
    totalUniqueVoters := st.totalUniqueVoters + 1 }

/-- One entry step of the first winner-selection loop of
`calculateWeightedResults`: keep the running maximum tally and the option
that last strictly raised it. -/
def winnerStep (acc : Nat × Option Nat) (p : Nat × Nat) : Nat × Option Nat :=
  if p.2 > acc.1 then (p.2, some p.1) else acc

/-- The first winner-selection loop of `calculateWeightedResults`: running
maximum tally and the option that last strictly raised it. -/
def winnerFold (optionTallies : List (Nat × Nat)) : Nat × Option Nat :=
  optionTallies.foldl winnerStep (0, none)

/-- The winner selection of `calculateWeightedResults`: the first loop picks
the option with the strictly highest tally; the tie check then clears the
winner when two or more options share a positive maximum, or when the
maximum is zero. -/
def computeWinner (optionTallies : List (Nat × Nat)) : Option Nat :=
  let mw := winnerFold optionTallies
  let maxVoteOptions :=
    (optionTallies.filter (fun p => decide (p.2 = mw.1 ∧ 0 < p.2))).map Prod.fst
  if maxVoteOptions.length > 1 then none
  else if mw.1 = 0 then none
  else mw.2

/-- `FinalVoteEngine.calculateWeightedResults`: initialize declared-option
tallies, total the power map, process every cast vote, and select the
winner. -/
def calculateWeightedResults (votingPowers : List (Wallet × Nat))
    (votes : List (Wallet × Nat)) (proposalOptions : List ProposalOption) :
    WeightedResults :=
  let totalVotingPower := valuesSum votingPowers
  let st0 : VoteFoldState :=
    { optionTallies := initTallies proposalOptions
      voterBreakdown := []
      totalVotesCast := 0
      totalUniqueVoters := 0 }
  let st := votes.foldl (processVote votingPowers) st0
  { optionTallies := st.optionTallies
    voterBreakdown := st.voterBreakdown
    totalVotingPower := totalVotingPower
    totalVotesCast := st.totalVotesCast
    totalUniqueVoters := st.totalUniqueVoters
    winningOption := computeWinner st.optionTallies }

/-- One row of the `final_vote_results_audit` table, as written by
`saveResultsAudit` / `saveErrorAudit` (the denormalized summary fields and
status; the embedded JSON blob is omitted). -/
structure TallyAuditRecord where
  status : String
  total_voting_power : Nat
  total_votes_cast : Nat
  winning_option : Option Nat
  error_message : Option String
deriving DecidableEq

/-- `FinalVoteEngine.saveErrorAudit`: the error record persisted on any
failure — status `error`, zeroed totals, null winning option. -/
def saveErrorAudit (errorMessage : String) : TallyAuditRecord :=
  { status := "error"
    total_voting_power := 0
    total_votes_cast := 0
    winning_option := none
    error_message := some errorMessage }

/-- Outcome of `FinalVoteEngine.calculateFinalResults`: the returned
success flag and results, plus the audit record written to
`final_vote_results_audit`. -/
structure FinalResultsOutcome where
  success : Bool
  results : Option WeightedResults
  auditWrites : List TallyAuditRecord
deriving DecidableEq

/-- `FinalVoteEngine.calculateFinalResults`: `resolutionPowers` is what
`loadVotingPowers` returns — `none` when the proposal has no
`delegation_resolution_audit` row with status `completed` (or the row has no
voting powers), in which case the engine throws before any tally
computation, and the catch block persists the `saveErrorAudit` record and
returns an unsuccessful result.  On success the `completed` audit record
carries the computed totals. -/
def calculateFinalResults (resolutionPowers : Option (List (Wallet × Nat)))
    (s : Store) (proposal : Option Proposal) : FinalResultsOutcome :=
  match resolutionPowers with
  | none =>
    { success := false
      results := none
      auditWrites :=
        [saveErrorAudit "No delegation resolution found - cannot proceed with vote counting"] }
  | some votingPowers =>
    let votes := getAllVotes s.votes
    match proposal with
    | none =>
      { success := false
        results := none
        auditWrites := [saveErrorAudit "Proposal not found"] }
    | some p =>
      let results := calculateWeightedResults votingPowers votes p.options
      { success := true
        results := some results
        auditWrites :=
          [{ status := "completed"
             total_voting_power := results.totalVotingPower
             total_votes_cast := results.totalVotesCast
             winning_option := results.winningOption
             error_message := none }] }

/-- The snapshot payload assembled by `RedisBackupManager.createSnapshot`
(the ISO timestamp field is omitted). -/
structure SnapshotData where
  votes : List (Wallet × Nat)
  delegations : List (Wallet × Wallet)
  participants : List Wallet
  status : Option String
  deadline : Option String
  vote_count : Nat
  delegation_count : Nat
  participant_count : Nat
deriving DecidableEq

/-- The JSON object stored in the `redis_data` column of a `redis_snapshots`
row.  `createSnapshot` inserts the snapshot payload fields at the *top
level* of this object (`flat`); `restoreFromSnapshot`, however, reads the
`data` property of it (`data`), which is absent (`none`) on every row that
`createSnapshot` writes — only `createSnapshot`'s *return value* wraps the
payload in a `data` field, and that return value is never stored. -/
structure StoredRedisData where
  flat : SnapshotData
  data : Option SnapshotData
deriving DecidableEq

/-- `RedisBackupManager.createSnapshot`: capture votes, delegations,
participants, status and deadline from the store and insert them as the
top-level fields of `redis_data` (no `data` wrapper is stored). -/
def createSnapshot (s : Store) : StoredRedisData :=
  let snapshotData : SnapshotData :=
    { votes := s.votes
      delegations := s.delegations
      participants := s.participants
      status := s.status
      deadline := s.deadline
      vote_count := s.votes.length
      delegation_count := s.delegations.length
      participant_count := s.participants.length }
  { flat := snapshotData, data := none }

/-- Result object of `RedisBackupManager.restoreFromSnapshot`. -/
structure RestoreOutcome where
  success : Bool
  error : Option String
deriving DecidableEq

/-- `RedisBackupManager.restoreFromSnapshot`, applied to the loaded snapshot
row: it requires `redis_data.data` and throws `Invalid snapshot data
structure` (mutating nothing — the throw happens before the Redis pipeline
is built) when that property is absent.  Otherwise the pipeline deletes all
proposal keys and repopulates votes, delegations, participants, status and
deadline from the `data` payload, each only when nonempty/truthy. -/
def restoreFromSnapshot (snapshotRecord : StoredRedisData) (s : Store) :
    RestoreOutcome × Store :=
  match snapshotRecord.data with
  | none => ({ success := false, error := some "Invalid snapshot data structure" }, s)
  | some d =>
    let cleared : Store :=
      { votes := [], delegations := [], participants := []
        status := none, deadline := none }
    let restored : Store :=
      { votes := if d.votes.isEmpty then cleared.votes else d.votes
        delegations := if d.delegations.isEmpty then cleared.delegations else d.delegations
        participants := if d.participants.isEmpty then cleared.participants else d.participants
        status := d.status
        deadline := d.deadline }
    ({ success := true, error := none }, restored)

/-- The `delegationResolution` component of one `resolveAllChains` step,
used to project that field out of the fold. -/
def resStep (delegations : List (Wallet × Wallet)) (m : List (Wallet × Wallet))
    (delegator : Wallet) : List (Wallet × Wallet) :=
  jsSet m delegator (resolveChainForUser delegator delegations).finalDelegate

/-- Specification predicate: starting at `c`, the delegation map steps
through the wallets of `ws` in order and the last wallet (or `c` itself when
`ws` is empty) has no outgoing delegation — a chain ending at a sink. -/
def isChain (delegations : List (Wallet × Wallet)) : Wallet → List Wallet → Prop
  | c, [] => hget delegations c = none
  | c, w :: ws => hget delegations c = some w ∧ isChain delegations w ws

instance isChainDecidable (delegations : List (Wallet × Wallet)) :
    (c : Wallet) → (ws : List Wallet) → Decidable (isChain delegations c ws)
  | c, [] => decidable_of_iff (hget delegations c = none) Iff.rfl
  | c, w :: ws =>
    have := isChainDecidable delegations w ws
    decidable_of_iff (hget delegations c = some w ∧ isChain delegations w ws) Iff.rfl

/-- Specification predicate: starting at `c`, the delegation map steps
through the wallets of `ws` in order and then reaches `d`. -/
def leadsTo (delegations : List (Wallet × Wallet)) :
    Wallet → List Wallet → Wallet → Prop
  | c, [], d => hget delegations c = some d
  | c, w :: ws, d => hget delegations c = some w ∧ leadsTo delegations w ws d

instance leadsToDecidable (delegations : List (Wallet × Wallet)) :
    (c : Wallet) → (ws : List Wallet) → (d : Wallet) → Decidable (leadsTo delegations c ws d)
  | c, [], d => decidable_of_iff (hget delegations c = some d) Iff.rfl
  | c, w :: ws, d =>
    have := leadsToDecidable delegations w ws d
    decidable_of_iff (hget delegations c = some w ∧ leadsTo delegations w ws d) Iff.rfl

/-- Specification value: the total power the per-vote loop accumulates into
`totalVotesCast` — the sum, over all cast votes, of the voter's power. -/
def totalCastSum (votingPowers : List (Wallet × Nat)) (votes : List (Wallet × Nat)) : Nat :=
  (votes.map (fun v => powerOf votingPowers (toLowerCase v.1))).sum

/-- Specification value: the power cast for one particular option — the sum
of the powers of the voters who chose it. -/
def castPowerSum (votingPowers : List (Wallet × Nat)) (votes : List (Wallet × Nat))
    (o : Nat) : Nat :=
  totalCastSum votingPowers (votes.filter (fun v => v.2 = o))

/-- A concrete acyclic delegation map forming a single chain of 101 edges
`w0 → w1 → ⋯ → w101` (so `w101` is the only sink). -/
def longChainMap : List (Wallet × Wallet) :=
  (List.range 101).map (fun i => ("w" ++ toString i, "w" ++ toString (i + 1)))

/-- The wallets `w1 … w101` visited after `w0` along `longChainMap`. -/
def longChainTail : List Wallet :=
  (List.range 101).map (fun i => "w" ++ toString (i + 1))

theorem keysOf_nil {α β : Type} : keysOf ([] : List (α × β)) = [] := rfl

theorem keysOf_cons {α β : Type} (p : α × β) (m : List (α × β)) :
    keysOf (p :: m) = p.1 :: keysOf m := rfl

theorem valuesSum_nil {α : Type} : valuesSum ([] : List (α × Nat)) = 0 := rfl

theorem valuesSum_cons {α : Type} (p : α × Nat) (m : List (α × Nat)) :
    valuesSum (p :: m) = p.2 + valuesSum m := by
  simp [valuesSum]

theorem hget_jsSet_self {α β : Type} [DecidableEq α] (m : List (α × β)) (k : α) (v : β) :
    hget (jsSet m k v) k = some v := by
  induction m with
  | nil => simp [jsSet, hget]
  | cons p rest ih =>
    obtain ⟨k0, v0⟩ := p
    by_cases h : k0 = k
    · simp [jsSet, hget, h]
    · simp [jsSet, hget, h, ih]

theorem hget_jsSet_ne {α β : Type} [DecidableEq α] (m : List (α × β)) (k k₁ : α) (v : β)
    (h : k₁ ≠ k) : hget (jsSet m k v) k₁ = hget m k₁ := by
  induction m with
  | nil => simp [jsSet, hget, Ne.symm h]
  | cons p rest ih =>
    obtain ⟨k0, v0⟩ := p
    by_cases h0 : k0 = k
    · simp [jsSet, hget, h0, Ne.symm h]
    · by_cases h1 : k0 = k₁
      · simp [jsSet, hget, h0, h1, h]
      · simp [jsSet, hget, h0, h1, ih]

theorem hget_hdel_self {α β : Type} [DecidableEq α] (m : List (α × β)) (k : α) :
    hget (hdel m k) k = none := by
  induction m with
  | nil => simp [hdel, hget]
  | cons p rest ih =>
    obtain ⟨k0, v0⟩ := p
    rw [hdel, List.filter_cons]
    by_cases h : k0 = k
    · simpa [h, hdel] using ih
    · simpa [h, hget, hdel] using ih

theorem hget_hdel_ne {α β : Type} [DecidableEq α] (m : List (α × β)) (k k₁ : α)
    (h : k₁ ≠ k) : hget (hdel m k) k₁ = hget m k₁ := by
  induction m with
  | nil => simp [hdel, hget]
  | cons p rest ih =>
    obtain ⟨k0, v0⟩ := p
    rw [hdel, List.filter_cons]
    by_cases h0 : k0 = k
    · simpa [h0, hget, Ne.symm h, hdel] using ih
    · by_cases h1 : k0 = k₁
      · simp [h0, h1, h, hget]
      · simpa [h0, h1, hget, hdel] using ih

theorem hget_eq_none_iff {α β : Type} [DecidableEq α] (m : List (α × β)) (k : α) :
    hget m k = none ↔ k ∉ keysOf m := by
  induction m with
  | nil => simp [hget, keysOf]
  | cons p rest ih =>
    obtain ⟨k0, v0⟩ := p
    rw [keysOf_cons, List.mem_cons]
    by_cases h : k0 = k
    · simp [hget, h]
    · have h2 : ¬ k = k0 := fun hh => h hh.symm
      simp [hget, h, h2, ih]

theorem hget_eq_getD_of_mem {α β : Type} [DecidableEq α] (m : List (α × β)) (k : α)
    (d : β) (h : k ∈ keysOf m) : hget m k = some ((hget m k).getD d) := by
  cases hh : hget m k with
  | none => exact absurd ((hget_eq_none_iff m k).mp hh) (fun hc => hc h)
  | some v => rfl

theorem jsSet_of_not_mem {α β : Type} [DecidableEq α] (m : List (α × β)) (k : α) (v : β)
    (h : k ∉ keysOf m) : jsSet m k v = m ++ [(k, v)] := by
  induction m with
  | nil => simp [jsSet]
  | cons p rest ih =>
    obtain ⟨k0, v0⟩ := p
    rw [keysOf_cons, List.mem_cons] at h
    push_neg at h
    have h0 : ¬ k0 = k := fun hh => h.1 hh.symm
    simp [jsSet, h0, ih h.2]

theorem keysOf_append {α β : Type} (m₁ m₂ : List (α × β)) :
    keysOf (m₁ ++ m₂) = keysOf m₁ ++ keysOf m₂ := by
  simp [keysOf]

theorem keysOf_jsSet_of_mem {α β : Type} [DecidableEq α] (m : List (α × β)) (k : α) (v : β)
    (h : k ∈ keysOf m) : keysOf (jsSet m k v) = keysOf m := by
  induction m with
  | nil => simp [keysOf] at h
  | cons p rest ih =>
    obtain ⟨k0, v0⟩ := p
    by_cases h0 : k0 = k
    · simp [jsSet, keysOf, h0]
    · have h2 : k ∈ keysOf rest := by
        rw [keysOf_cons, List.mem_cons] at h
        rcases h with h1 | h1
        · exact absurd h1.symm h0
        · exact h1
      have step : jsSet ((k0, v0) :: rest) k v = (k0, v0) :: jsSet rest k v := by
        simp [jsSet, h0]
      rw [step, keysOf_cons, keysOf_cons, ih h2]

theorem keysOf_jsSet_nodup {α β : Type} [DecidableEq α] (m : List (α × β)) (k : α) (v : β)
    (h : (keysOf m).Nodup) : (keysOf (jsSet m k v)).Nodup := by
  by_cases hk : k ∈ keysOf m
  · rw [keysOf_jsSet_of_mem m k v hk]; exact h
  · rw [jsSet_of_not_mem m k v hk, keysOf_append]
    refine List.Nodup.append h (List.nodup_singleton k) ?_
    intro a ha hb
    have hb2 : a = k := by simpa [keysOf] using hb
    exact hk (hb2 ▸ ha)

theorem valuesSum_bumpPower (m : List (Wallet × Nat)) (w : Wallet) :
    valuesSum (bumpPower m w) = valuesSum m + 1 := by
  induction m with
  | nil => simp [bumpPower, jsSet, hget, valuesSum]
  | cons p rest ih =>
    obtain ⟨k0, v0⟩ := p
    by_cases h : k0 = w
    · simp [bumpPower, jsSet, hget, h, valuesSum]
      omega
    · have step : bumpPower ((k0, v0) :: rest) w = (k0, v0) :: bumpPower rest w := by
        simp [bumpPower, jsSet, hget, h]
      rw [step, valuesSum_cons, valuesSum_cons, ih]
      omega

theorem valuesSum_filter_nonzero (m : List (Wallet × Nat)) :
    valuesSum (m.filter (fun p => p.2 ≠ 0)) = valuesSum m := by
  induction m with
  | nil => simp
  | cons p rest ih =>
    rw [List.filter_cons]
    by_cases h : p.2 = 0
    · simpa [h, valuesSum_cons, decide_not] using ih
    · simpa [h, valuesSum_cons, decide_not] using ih

theorem valuesSum_foldl_bumpBySnd (l : List (Wallet × Wallet)) :
    ∀ init : List (Wallet × Nat),
      valuesSum (l.foldl (fun acc p => bumpPower acc p.2) init) =
        valuesSum init + l.length := by
  induction l with
  | nil => simp
  | cons p rest ih =>
    intro init
    simp [List.foldl, ih (bumpPower init p.2), valuesSum_bumpPower]
    omega

theorem valuesSum_foldl_bumpPower (l : List Wallet) :
    ∀ init : List (Wallet × Nat),
      valuesSum (l.foldl bumpPower init) = valuesSum init + l.length := by
  induction l with
  | nil => simp
  | cons w rest ih =>
    intro init
    simp [List.foldl, ih (bumpPower init w), valuesSum_bumpPower]
    omega

theorem calculateVotingPowers_sum (delegationResolution : List (Wallet × Wallet))
    (votesMap : List (Wallet × Nat)) :
    valuesSum (calculateVotingPowers delegationResolution votesMap) =
      delegationResolution.length + votesMap.length := by
  unfold calculateVotingPowers
  rw [valuesSum_filter_nonzero, valuesSum_foldl_bumpPower, valuesSum_foldl_bumpBySnd]
  simp [keysOf, valuesSum]

theorem keysOf_length {α β : Type} (m : List (α × β)) : (keysOf m).length = m.length :=
  List.length_map m Prod.fst

theorem getAllVotes_fold (votes : List (Wallet × Nat)) :
    ∀ acc : List (Wallet × Nat),
      (∀ p ∈ votes, toLowerCase p.1 = p.1) →
      (keysOf votes).Nodup →
      (∀ p ∈ votes, p.1 ∉ keysOf acc) →
      votes.foldl lowerSetV acc = acc ++ votes := by
  induction votes with
  | nil => intro acc _ _ _; simp
  | cons p rest ih =>
    intro acc hn hnd hdisj
    obtain ⟨k0, v0⟩ := p
    have hk : toLowerCase k0 = k0 := hn (k0, v0) (by simp)
    have hfresh : k0 ∉ keysOf acc := hdisj (k0, v0) (by simp)
    have step : lowerSetV acc (k0, v0) = acc ++ [(k0, v0)] := by
      rw [lowerSetV]
      simp only [hk]
      exact jsSet_of_not_mem acc k0 v0 hfresh
    rw [keysOf_cons] at hnd
    have hnd2 := hnd
    rw [List.nodup_cons] at hnd2
    rw [List.foldl_cons, step,
      ih (acc ++ [(k0, v0)]) (fun q hq => hn q (List.mem_cons_of_mem _ hq)) hnd2.2 ?hf,
      List.append_assoc]
    · rfl
    case hf =>
      intro q hq
      rw [keysOf_append, List.mem_append]
      push_neg
      constructor
      · exact hdisj q (List.mem_cons_of_mem _ hq)
      · intro hc
        have hq2 : q.1 = k0 := by simpa [keysOf] using hc
        have hq3 : q.1 ∈ keysOf rest := List.mem_map_of_mem Prod.fst hq
        rw [hq2] at hq3
        exact hnd2.1 hq3

theorem getAllVotes_eq_self (votes : List (Wallet × Nat))
    (hn : ∀ p ∈ votes, toLowerCase p.1 = p.1) (hnd : (keysOf votes).Nodup) :
    getAllVotes votes = votes := by
  rw [getAllVotes, getAllVotes_fold votes [] hn hnd (by intro p _; simp [keysOf])]
  rfl

theorem getAllDelegations_fold (delegations : List (Wallet × Wallet)) :
    ∀ acc : List (Wallet × Wallet),
      (∀ p ∈ delegations, toLowerCase p.1 = p.1 ∧ toLowerCase p.2 = p.2) →
      (keysOf delegations).Nodup →
      (∀ p ∈ delegations, p.1 ∉ keysOf acc) →
      delegations.foldl lowerSetD acc = acc ++ delegations := by
  induction delegations with
  | nil => intro acc _ _ _; simp
  | cons p rest ih =>
    intro acc hn hnd hdisj
    obtain ⟨k0, v0⟩ := p
    have hk := hn (k0, v0) (by simp)
    have hfresh : k0 ∉ keysOf acc := hdisj (k0, v0) (by simp)
    have step : lowerSetD acc (k0, v0) = acc ++ [(k0, v0)] := by
      rw [lowerSetD]
      simp only [hk.1, hk.2]
      exact jsSet_of_not_mem acc k0 v0 hfresh
    rw [keysOf_cons] at hnd
    have hnd2 := hnd
    rw [List.nodup_cons] at hnd2
    rw [List.foldl_cons, step,
      ih (acc ++ [(k0, v0)]) (fun q hq => hn q (List.mem_cons_of_mem _ hq)) hnd2.2 ?hf,
      List.append_assoc]
    · rfl
    case hf =>
      intro q hq
      rw [keysOf_append, List.mem_append]
      push_neg
      constructor
      · exact hdisj q (List.mem_cons_of_mem _ hq)
      · intro hc
        have hq2 : q.1 = k0 := by simpa [keysOf] using hc
        have hq3 : q.1 ∈ keysOf rest := List.mem_map_of_mem Prod.fst hq
        rw [hq2] at hq3
        exact hnd2.1 hq3

theorem getAllDelegations_eq_self (delegations : List (Wallet × Wallet))
    (hn : ∀ p ∈ delegations, toLowerCase p.1 = p.1 ∧ toLowerCase p.2 = p.2)
    (hnd : (keysOf delegations).Nodup) :
    getAllDelegations delegations = delegations := by
  rw [getAllDelegations,
    getAllDelegations_fold delegations [] hn hnd (by intro p _; simp [keysOf])]
  rfl

theorem graphFold_fst (delegationMap : List (Wallet × Wallet)) :
    ∀ acc : List (Wallet × Wallet) × List (Wallet × List Wallet),
      (delegationMap.foldl graphStep acc).1 = delegationMap.foldl lowerSetD acc.1 := by
  induction delegationMap with
  | nil => intro acc; rfl
  | cons p rest ih =>
    intro acc
    rw [List.foldl_cons, List.foldl_cons, ih (graphStep acc p)]
    rfl

theorem buildDelegationGraph_delegations (delegationMap : List (Wallet × Wallet)) :
    (buildDelegationGraph delegationMap).delegations = getAllDelegations delegationMap := by
  rw [buildDelegationGraph, getAllDelegations]
  exact graphFold_fst delegationMap ([], [])

theorem chainsFold_res (delegations : List (Wallet × Wallet)) (ks : List Wallet) :
    ∀ acc : ResolvedChains,
      (ks.foldl (chainsStep delegations) acc).delegationResolution =
        ks.foldl (resStep delegations) acc.delegationResolution := by
  induction ks with
  | nil => intro acc; rfl
  | cons k rest ih =>
    intro acc
    rw [List.foldl_cons, List.foldl_cons, ih (chainsStep delegations acc k)]
    rfl

theorem keysOf_foldl_resStep (delegations : List (Wallet × Wallet)) (ks : List Wallet) :
    ∀ m : List (Wallet × Wallet),
      ks.Nodup → (∀ k ∈ ks, k ∉ keysOf m) →
      keysOf (ks.foldl (resStep delegations) m) = keysOf m ++ ks := by
  induction ks with
  | nil => intro m _ _; simp
  | cons k rest ih =>
    intro m hnd hfresh
    have hk : k ∉ keysOf m := hfresh k (by simp)
    have step : keysOf (resStep delegations m k) = keysOf m ++ [k] := by
      rw [resStep, jsSet_of_not_mem _ _ _ hk, keysOf_append]
      rfl
    rw [List.nodup_cons] at hnd
    rw [List.foldl_cons, ih (resStep delegations m k) hnd.2 ?hf, step, List.append_assoc]
    · rfl
    case hf =>
      intro k2 hk2
      rw [step, List.mem_append]
      push_neg
      refine ⟨hfresh k2 (List.mem_cons_of_mem _ hk2), ?_⟩
      intro hc
      rw [List.mem_singleton] at hc
      exact hnd.1 (hc ▸ hk2)

theorem resolveAllChains_res_keys (delegations : List (Wallet × Wallet))
    (hnd : (keysOf delegations).Nodup) :
    keysOf (resolveAllChains delegations).delegationResolution = keysOf delegations := by
  rw [resolveAllChains, chainsFold_res,
    keysOf_foldl_resStep delegations (keysOf delegations) [] hnd
      (by intro k _; simp [keysOf])]
  rfl

/-- C1: for every proposal state, calling `createSnapshot` and then
`restoreFromSnapshot` on the stored row always *fails*: the stored
`redis_data` has no `data` wrapper, so the restore throws `Invalid snapshot
data structure` before touching the store — the round trip never succeeds,
contradicting the claim that it succeeds and is the identity. -/
theorem C1_snapshot_restore_round_trip_fails (s : Store) :
    restoreFromSnapshot (createSnapshot s) s =
      ({ success := false, error := some "Invalid snapshot data structure" }, s) := rfl

/-- C7: after `castVote` completes, the wallet's delegation reads back as
none, and after `setDelegation` completes, the wallet's vote reads back as
none — mutual exclusion holds after either operation. -/
theorem C7_mutual_exclusion (s : Store) (w : Wallet) (o : Nat) (d : Wallet) :
    getUserDelegation (castVote s w o) w = none ∧
    getUserVote (setDelegation s w d) w = none := by
  constructor
  · show hget (hdel s.delegations (toLowerCase w)) (toLowerCase w) = none
    exact hget_hdel_self _ _
  · show hget (hdel s.votes (toLowerCase w)) (toLowerCase w) = none
    exact hget_hdel_self _ _

/-- C10: `removeVote` deletes only the wallet's votes entry and
`removeDelegation` only its delegations entry; delegations/participants/
status/deadline (respectively votes/participants/status/deadline) and every
other wallet's entry are untouched, so a wallet that removed its vote or
delegation stays in the participant set while that entry reads back none. -/
theorem C10_remove_frame (s : Store) (w : Wallet) :
    (removeVote s w).delegations = s.delegations ∧
    (removeVote s w).participants = s.participants ∧
    (removeVote s w).status = s.status ∧
    (removeVote s w).deadline = s.deadline ∧
    getUserVote (removeVote s w) w = none ∧
    (∀ w2, toLowerCase w2 ≠ toLowerCase w →
      getUserVote (removeVote s w) w2 = getUserVote s w2) ∧
    (removeDelegation s w).votes = s.votes ∧
    (removeDelegation s w).participants = s.participants ∧
    (removeDelegation s w).status = s.status ∧
    (removeDelegation s w).deadline = s.deadline ∧
    getUserDelegation (removeDelegation s w) w = none ∧
    (∀ w2, toLowerCase w2 ≠ toLowerCase w →
      getUserDelegation (removeDelegation s w) w2 = getUserDelegation s w2) ∧
    (w ∈ s.participants →
      w ∈ (removeVote s w).participants ∧ w ∈ (removeDelegation s w).participants) := by
  refine ⟨rfl, rfl, rfl, rfl, hget_hdel_self _ _, ?_, rfl, rfl, rfl, rfl,
    hget_hdel_self _ _, ?_, fun h => ⟨h, h⟩⟩
  · intro w2 hne
    exact hget_hdel_ne s.votes (toLowerCase w) (toLowerCase w2) hne
  · intro w2 hne
    exact hget_hdel_ne s.delegations (toLowerCase w) (toLowerCase w2) hne

/-- C8: when a proposal has no completed Resolution Record
(`loadVotingPowers` returns none), `calculateFinalResults` returns an
unsuccessful result and persists exactly one audit record, with status
`error`, zeroed totals and null winning option — never a `completed` one. -/
theorem C8_no_resolution_error_audit (s : Store) (proposal : Option Proposal) :
    (calculateFinalResults none s proposal).success = false ∧
    (calculateFinalResults none s proposal).auditWrites =
      [{ status := "error", total_voting_power := 0, total_votes_cast := 0,
         winning_option := none,
         error_message :=
           some "No delegation resolution found - cannot proceed with vote counting" }] ∧
    ∀ r ∈ (calculateFinalResults none s proposal).auditWrites, r.status ≠ "completed" := by
  refine ⟨rfl, rfl, ?_⟩
  intro r hr
  have hr2 : r = saveErrorAudit
      "No delegation resolution found - cannot proceed with vote counting" := by
    simpa [calculateFinalResults] using hr
  rw [hr2]
  decide

/-- C6: delegating a wallet to itself (up to case-normalization) is always
reported as a trivial cycle with path `[wallet]`, and the delegate route
rejects it before any store write, leaving votes, delegations and
participants unchanged. -/
theorem C6_self_delegation_rejected (s : Store) (u t : Wallet)
    (h : toLowerCase u = toLowerCase t) :
    detectCyclesDFS s.delegations u t =
      { hasCycle := true, cyclePath := some [toLowerCase u],
        reason := some "Cannot delegate to yourself" } ∧
    delegateRoute s u t = (s, false) := by
  have h1 : detectCyclesDFS s.delegations u t =
      { hasCycle := true, cyclePath := some [toLowerCase u],
        reason := some "Cannot delegate to yourself" } := by
    rw [detectCyclesDFS]
    simp only [h, if_pos]
  refine ⟨h1, ?_⟩
  rw [delegateRoute]
  simp [h1]

/-- C2 counterexample: resolution completes on a store whose participant set
contains a wallet holding neither a vote nor a delegation (the state left by
`removeVote`/`removeDelegation`, which keep the wallet in the participant
set); the power sum is 0 while the participant set has size 1, so the claim
"sum of powers = participant-set size" fails as stated. -/
theorem C2_counterexample :
    valuesSum (resolveBulkDelegations (Store.mk [] [] ["0xa"] none none)).votingPowers ≠
      (resolveBulkDelegations (Store.mk [] [] ["0xa"] none none)).totalParticipants ∧
    valuesSum (resolveBulkDelegations (Store.mk [] [] ["0xa"] none none)).votingPowers = 0 ∧
    (resolveBulkDelegations (Store.mk [] [] ["0xa"] none none)).totalParticipants = 1 := by
  decide

/-- C2 (amended): when the participant set is exactly the set of wallets
holding a vote or a delegation and no wallet holds both (the §4.1
invariant), the sum of all computed voting powers equals the participant-set
size; unconditionally on those well-formedness hypotheses it equals the
number of voters plus the number of delegators. -/
theorem C2_power_sum_eq_participants (s : Store)
    (hVN : ∀ p ∈ s.votes, toLowerCase p.1 = p.1)
    (hDN : ∀ p ∈ s.delegations, toLowerCase p.1 = p.1 ∧ toLowerCase p.2 = p.2)
    (hVnd : (keysOf s.votes).Nodup)
    (hDnd : (keysOf s.delegations).Nodup)
    (hPnd : s.participants.Nodup)
    (hdisj : ∀ w ∈ keysOf s.votes, w ∉ keysOf s.delegations)
    (hPV : ∀ w ∈ s.participants, w ∈ keysOf s.votes ∨ w ∈ keysOf s.delegations)
    (hVP : ∀ w ∈ keysOf s.votes, w ∈ s.participants)
    (hDP : ∀ w ∈ keysOf s.delegations, w ∈ s.participants) :
    valuesSum (resolveBulkDelegations s).votingPowers = s.participants.length ∧
    valuesSum (resolveBulkDelegations s).votingPowers =
      s.delegations.length + s.votes.length := by
  have hD : getAllDelegations s.delegations = s.delegations :=
    getAllDelegations_eq_self _ hDN hDnd
  have hV : getAllVotes s.votes = s.votes := getAllVotes_eq_self _ hVN hVnd
  have hsum : valuesSum (resolveBulkDelegations s).votingPowers =
      s.delegations.length + s.votes.length := by
    show valuesSum
      (calculateVotingPowers
        (resolveAllChains
          (buildDelegationGraph (getAllDelegations s.delegations)).delegations).delegationResolution
        (getAllVotes s.votes)) = s.delegations.length + s.votes.length
    rw [hD, buildDelegationGraph_delegations, hD, hV, calculateVotingPowers_sum]
    have hk := congrArg List.length (resolveAllChains_res_keys s.delegations hDnd)
    rw [keysOf_length, keysOf_length] at hk
    rw [hk]
  have hkeys : (keysOf s.votes ++ keysOf s.delegations).Nodup :=
    List.Nodup.append hVnd hDnd (fun a ha hb => hdisj a ha hb)
  have hperm : s.participants.Perm (keysOf s.votes ++ keysOf s.delegations) :=
    (List.perm_ext_iff_of_nodup hPnd hkeys).mpr
      (fun w => by
        rw [List.mem_append]
        exact ⟨fun hw => hPV w hw, fun hw => hw.elim (hVP w) (hDP w)⟩)
  have hplen := hperm.length_eq
  rw [List.length_append, keysOf_length, keysOf_length] at hplen
  refine ⟨?_, hsum⟩
  rw [hsum, hplen]
  omega

theorem isChain_getLastD_none (delegations : List (Wallet × Wallet)) :
    ∀ (ws : List Wallet) (c : Wallet), isChain delegations c ws →
      hget delegations (ws.getLastD c) = none := by
  intro ws
  induction ws with
  | nil => intro c h; exact h
  | cons w rest ih =>
    intro c h
    rw [List.getLastD_cons]
    exact ih w h.2

theorem chainLoop_sink (delegations : List (Wallet × Wallet)) :
    ∀ (ws : List Wallet) (current : Wallet) (fuel : Nat) (visited path : List Wallet),
      isChain delegations current ws →
      ws.length < fuel →
      (∀ w ∈ ws, w ∉ visited) →
      ws.Nodup →
      chainLoop delegations fuel visited path current =
        ⟨ws.getLastD current, path ++ ws, (path ++ ws).length⟩ := by
  intro ws
  induction ws with
  | nil =>
    intro current fuel visited path hch hfuel _ _
    cases fuel with
    | zero => omega
    | succ f =>
      have hnone : hget delegations current = none := hch
      simp [chainLoop, hnone]
  | cons w rest ih =>
    intro current fuel visited path hch hfuel hvis hnd
    cases fuel with
    | zero => simp at hfuel
    | succ f =>
      rw [List.nodup_cons] at hnd
      have hw : w ∉ visited := hvis w (List.mem_cons_self w rest)
      have step : chainLoop delegations (f + 1) visited path current =
          chainLoop delegations f (w :: visited) (path ++ [w]) w := by
        simp only [chainLoop, hch.1]
        rw [if_neg hw]
      rw [step, ih w f (w :: visited) (path ++ [w]) hch.2 (by simp at hfuel; omega) ?hv hnd.2]
      · rw [List.getLastD_cons]
        simp
      case hv =>
        intro u hu
        rw [List.mem_cons]
        push_neg
        constructor
        · intro he
          exact hnd.1 (he ▸ hu)
        · exact hvis u (List.mem_cons_of_mem _ hu)

/-- C5 (amended): for every delegation map and every delegator whose chain
reaches a sink within at most 99 hops without revisiting a wallet (in
particular for every acyclic map whose chains are that short),
`resolveChainForUser` stops exactly at that sink and records path
`start :: ws` of length `|ws| + 1 ≤ 100`.  Chains of 100 or more hops
instead stop at the hop limit, possibly at a non-sink with recorded length
101 (see the counterexample). -/
theorem C5_chain_resolution_sink (delegations : List (Wallet × Wallet))
    (startWallet : Wallet) (ws : List Wallet)
    (hch : isChain delegations startWallet ws)
    (hnd : (startWallet :: ws).Nodup)
    (hlen : ws.length ≤ 99) :
    (resolveChainForUser startWallet delegations).finalDelegate =
      ws.getLastD startWallet ∧
    hget delegations (resolveChainForUser startWallet delegations).finalDelegate = none ∧
    (resolveChainForUser startWallet delegations).path = startWallet :: ws ∧
    (resolveChainForUser startWallet delegations).length = ws.length + 1 ∧
    (resolveChainForUser startWallet delegations).length ≤ 100 := by
  rw [List.nodup_cons] at hnd
  have hrun : resolveChainForUser startWallet delegations =
      ⟨ws.getLastD startWallet, [startWallet] ++ ws, ([startWallet] ++ ws).length⟩ := by
    rw [resolveChainForUser]
    exact chainLoop_sink delegations ws startWallet 100 [startWallet] [startWallet]
      hch (by omega) (fun w hw => by
        rw [List.mem_singleton]
        intro he
        exact hnd.1 (he ▸ hw)) hnd.2
  rw [hrun]
  refine ⟨rfl, isChain_getLastD_none delegations ws startWallet hch, by simp, by simp, by simp; omega⟩

set_option maxRecDepth 40000 in
/-- C5 counterexample: `longChainMap` is acyclic (a single simple chain,
exhibited by the `isChain`/`Nodup` conjuncts), yet resolving `w0` stops at
the 100-hop limit with recorded path length 101 > 100 at a wallet that
still has an outgoing delegation (not a sink) — the claim as stated fails
for acyclic chains longer than the hop limit. -/
theorem C5_counterexample :
    isChain longChainMap "w0" longChainTail ∧
    ("w0" :: longChainTail).Nodup ∧
    (resolveChainForUser "w0" longChainMap).length = 101 ∧
    ¬ (resolveChainForUser "w0" longChainMap).length ≤ 100 ∧
    hget longChainMap (resolveChainForUser "w0" longChainMap).finalDelegate ≠ none := by
  decide

/-- Witness for C5: a two-hop chain `0xa → 0xb → 0xc` resolves to the sink
`0xc` with recorded length 3 ≤ 100. -/
theorem C5_chain_resolution_sink_witness :
    (resolveChainForUser "0xa" [("0xa", "0xb"), ("0xb", "0xc")]).finalDelegate = "0xc" ∧
    hget [("0xa", "0xb"), ("0xb", "0xc")]
      (resolveChainForUser "0xa" [("0xa", "0xb"), ("0xb", "0xc")]).finalDelegate = none ∧
    (resolveChainForUser "0xa" [("0xa", "0xb"), ("0xb", "0xc")]).length ≤ 100 := by
  have h := C5_chain_resolution_sink [("0xa", "0xb"), ("0xb", "0xc")] "0xa" ["0xb", "0xc"]
    (by decide) (by decide) (by decide)
  exact ⟨h.1, h.2.1, h.2.2.2.2⟩

theorem dfsLoop_finds (sim : List (Wallet × Wallet)) (delegator : Wallet) :
    ∀ (ws : List Wallet) (current : Wallet) (fuel : Nat) (visited path : List Wallet),
      leadsTo sim current ws delegator →
      ws.length < fuel →
      current ∉ visited →
      (∀ w ∈ ws, w ∉ visited) →
      (current :: ws).Nodup →
      delegator ∉ current :: ws →
      dfsLoop sim delegator fuel visited path current =
        cycleFound (path ++ ws ++ [delegator]) := by
  intro ws
  induction ws with
  | nil =>
    intro current fuel visited path hlt hfuel hcv _ _ _
    cases fuel with
    | zero => omega
    | succ f =>
      have hsome : hget sim current = some delegator := hlt
      simp only [dfsLoop, hsome]
      rw [if_neg hcv]
      simp
  | cons w rest ih =>
    intro current fuel visited path hlt hfuel hcv hvis hnd hdni
    cases fuel with
    | zero => simp at hfuel
    | succ f =>
      rw [List.nodup_cons] at hnd
      rw [List.mem_cons] at hdni
      push_neg at hdni
      have hwd : ¬ w = delegator := by
        intro he
        exact hdni.2 (he ▸ List.mem_cons_self w rest)
      have hwcur : ¬ w = current := by
        intro he
        exact hnd.1 (he ▸ List.mem_cons_self w rest)
      have step : dfsLoop sim delegator (f + 1) visited path current =
          dfsLoop sim delegator f (current :: visited) (path ++ [w]) w := by
        simp only [dfsLoop, hlt.1]
        rw [if_neg hcv, if_neg hwd]
      rw [step, ih w f (current :: visited) (path ++ [w]) hlt.2
        (by simp at hfuel; omega) ?hw ?hvs ?hnd2 ?hdni2]
      · simp
      case hw =>
        rw [List.mem_cons]
        push_neg
        exact ⟨hwcur, hvis w (List.mem_cons_self w rest)⟩
      case hvs =>
        intro u hu
        rw [List.mem_cons]
        push_neg
        constructor
        · intro he
          exact hnd.1 (he ▸ List.mem_cons_of_mem _ hu)
        · exact hvis u (List.mem_cons_of_mem _ hu)
      case hnd2 => exact hnd.2
      case hdni2 => exact hdni.2

/-- C4 (amended): whenever adding the simulated edge delegator → target to a
normalized delegation map creates a simple path from the target back to the
delegator of at most 100 hops, `detectCyclesDFS` reports the cycle together
with the full walked path `target :: ws ++ [delegator]` — the recorded path
starts at the *target* and ends at the delegator, so for an existing edge
A→B the rejected attempt B→A is reported with path `[A, B]` (not `[B, A]`),
as the second conjunct shows on that concrete scenario. -/
theorem C4_cycle_detection (delegations : List (Wallet × Wallet))
    (delegator target : Wallet) (ws : List Wallet)
    (hDN : ∀ p ∈ delegations, toLowerCase p.1 = p.1 ∧ toLowerCase p.2 = p.2)
    (hDnd : (keysOf delegations).Nodup)
    (hdg : toLowerCase delegator = delegator)
    (htg : toLowerCase target = target)
    (hne : delegator ≠ target)
    (hlink : leadsTo (jsSet delegations delegator target) target ws delegator)
    (hnd : (target :: ws).Nodup)
    (hdni : delegator ∉ target :: ws)
    (hlen : ws.length + 1 ≤ 100) :
    detectCyclesDFS delegations delegator target =
      cycleFound (target :: (ws ++ [delegator])) ∧
    (detectCyclesDFS [("a", "b")] "b" "a").cyclePath = some ["a", "b"] := by
  constructor
  · rw [detectCyclesDFS]
    simp only [hdg, htg]
    rw [if_neg hne, getAllDelegations_eq_self delegations hDN hDnd]
    exact dfsLoop_finds (jsSet delegations delegator target) delegator ws target 100 [] [target]
      hlink (by omega) (by simp) (by simp) hnd hdni
  · decide

/-- Witness for C4: with the existing edge a → b, the attempted edge b → a
is reported as a cycle with walked path `[a, b]`. -/
theorem C4_cycle_detection_witness :
    detectCyclesDFS [("a", "b")] "b" "a" = cycleFound ["a", "b"] :=
  (C4_cycle_detection [("a", "b")] "b" "a" [] (by decide) (by decide) (by decide)
    (by decide) (by decide) (by decide) (by decide) (by decide) (by decide)).1

/-- C4 counterexample: after edge A→B, the rejected attempt B→A carries
cycle path `[A, B]`, not `[B, A]` as the claim states. -/
theorem C4_counterexample :
    (detectCyclesDFS [("a", "b")] "b" "a").hasCycle = true ∧
    (detectCyclesDFS [("a", "b")] "b" "a").cyclePath = some ["a", "b"] ∧
    some ["a", "b"] ≠ some (["b", "a"] : List Wallet) := by
  decide

/-- Witness for C2 (amended): a well-formed store — delegations a→c, b→c,
votes by c and d, participants exactly those four wallets — has power sum
4 = participant-set size. -/
theorem C2_power_sum_eq_participants_witness :
    valuesSum (resolveBulkDelegations
      (Store.mk [("0xc", 1), ("0xd", 2)] [("0xa", "0xc"), ("0xb", "0xc")]
        ["0xa", "0xb", "0xc", "0xd"] none none)).votingPowers = 4 :=
  (C2_power_sum_eq_participants
    (Store.mk [("0xc", 1), ("0xd", 2)] [("0xa", "0xc"), ("0xb", "0xc")]
      ["0xa", "0xb", "0xc", "0xd"] none none)
    (by decide) (by decide) (by decide) (by decide) (by decide) (by decide)
    (by decide) (by decide) (by decide)).1

theorem winnerFold_fst_aux (l : List (Nat × Nat)) :
    ∀ acc : Nat × Option Nat,
      (l.foldl winnerStep acc).1 = l.foldl (fun a p => max a p.2) acc.1 := by
  induction l with
  | nil => intro acc; rfl
  | cons p rest ih =>
    intro acc
    rw [List.foldl_cons, List.foldl_cons, ih (winnerStep acc p)]
    congr 1
    rw [winnerStep]
    by_cases h : p.2 > acc.1
    · rw [if_pos h]
      exact (Nat.max_eq_right (Nat.le_of_lt h)).symm
    · rw [if_neg h]
      exact (Nat.max_eq_left (Nat.not_lt.mp h)).symm

theorem foldMax_init_le (l : List (Nat × Nat)) :
    ∀ a : Nat, a ≤ l.foldl (fun a p => max a p.2) a := by
  induction l with
  | nil => intro a; exact Nat.le_refl a
  | cons p rest ih =>
    intro a
    rw [List.foldl_cons]
    exact Nat.le_trans (Nat.le_max_left a p.2) (ih (max a p.2))

theorem mem_le_foldMax (l : List (Nat × Nat)) :
    ∀ (a : Nat), ∀ p ∈ l, p.2 ≤ l.foldl (fun a p => max a p.2) a := by
  induction l with
  | nil => intro a p hp; simp at hp
  | cons q rest ih =>
    intro a p hp
    rw [List.foldl_cons]
    rcases List.mem_cons.mp hp with h | h
    · exact Nat.le_trans (h ▸ Nat.le_max_right a q.2) (foldMax_init_le rest (max a q.2))
    · exact ih (max a q.2) p h

theorem foldMax_attained (l : List (Nat × Nat)) :
    ∀ a : Nat, l.foldl (fun a p => max a p.2) a = a ∨
      ∃ p ∈ l, l.foldl (fun a p => max a p.2) a = p.2 := by
  induction l with
  | nil => intro a; exact Or.inl rfl
  | cons p rest ih =>
    intro a
    rw [List.foldl_cons]
    rcases ih (max a p.2) with h | ⟨q, hq, he⟩
    · by_cases hc : p.2 ≤ a
      · refine Or.inl ?_
        rw [h]
        exact Nat.max_eq_left hc
      · refine Or.inr ⟨p, List.mem_cons_self p rest, ?_⟩
        rw [h]
        exact Nat.max_eq_right (Nat.le_of_not_le hc)
    · exact Or.inr ⟨q, List.mem_cons_of_mem p hq, he⟩

theorem winnerFold_snd_cases (l : List (Nat × Nat)) :
    ∀ acc : Nat × Option Nat,
      l.foldl winnerStep acc = acc ∨
      ∃ p ∈ l, l.foldl winnerStep acc = (p.2, some p.1) := by
  induction l with
  | nil => intro acc; exact Or.inl rfl
  | cons p rest ih =>
    intro acc
    rw [List.foldl_cons]
    rcases ih (winnerStep acc p) with h | ⟨q, hq, he⟩
    · by_cases hc : p.2 > acc.1
      · refine Or.inr ⟨p, List.mem_cons_self p rest, ?_⟩
        rw [h, winnerStep, if_pos hc]
      · refine Or.inl ?_
        rw [h, winnerStep, if_neg hc]
    · exact Or.inr ⟨q, List.mem_cons_of_mem p hq, he⟩

theorem mem_keysOf_of_mem {α β : Type} {l : List (α × β)} {p : α × β} (h : p ∈ l) :
    p.1 ∈ keysOf l := List.mem_map_of_mem Prod.fst h

theorem nodup_keys_val_eq {α β : Type} [DecidableEq α] {l : List (α × β)}
    (hnd : (keysOf l).Nodup) :
    ∀ {k : α} {v w : β}, (k, v) ∈ l → (k, w) ∈ l → v = w := by
  induction l with
  | nil => intro k v w hv _; simp at hv
  | cons q rest ih =>
    intro k v w hv hw
    rw [keysOf_cons, List.nodup_cons] at hnd
    rcases List.mem_cons.mp hv with h1 | h1 <;> rcases List.mem_cons.mp hw with h2 | h2
    · rw [← h1] at h2
      exact congrArg Prod.snd h2.symm
    · exfalso
      have : k ∈ keysOf rest := mem_keysOf_of_mem h2
      rw [← h1] at hnd
      exact hnd.1 this
    · exfalso
      have : k ∈ keysOf rest := mem_keysOf_of_mem h1
      rw [← h2] at hnd
      exact hnd.1 this
    · exact ih hnd.2 h1 h2

theorem one_lt_length_of_two_mem {γ : Type} {xs : List γ} {a b : γ}
    (ha : a ∈ xs) (hb : b ∈ xs) (hne : a ≠ b) : 1 < xs.length := by
  cases xs with
  | nil => simp at ha
  | cons x rest =>
    cases rest with
    | nil =>
      rw [List.mem_singleton] at ha hb
      exact absurd (ha.trans hb.symm) hne
    | cons y rest2 => simp

theorem length_le_one_of_all_eq {γ : Type} {xs : List γ} {a : γ}
    (hnd : xs.Nodup) (hall : ∀ x ∈ xs, x = a) : xs.length ≤ 1 := by
  cases xs with
  | nil => simp
  | cons x rest =>
    cases rest with
    | nil => simp
    | cons y rest2 =>
      exfalso
      rw [List.nodup_cons] at hnd
      have hx : x = a := hall x (List.mem_cons_self _ _)
      have hy : y = a := hall y (List.mem_cons_of_mem _ (List.mem_cons_self _ _))
      exact hnd.1 (by rw [hx, ← hy]; exact List.mem_cons_self _ _)

theorem computeWinner_spec (l : List (Nat × Nat)) (hnd : (keysOf l).Nodup) (o : Nat) :
    computeWinner l = some o ↔
      ∃ t, (o, t) ∈ l ∧ 0 < t ∧ ∀ p ∈ l, p.1 ≠ o → p.2 < t := by
  have hcases : winnerFold l = (0, none) ∨
      ∃ p ∈ l, winnerFold l = (p.2, some p.1) := winnerFold_snd_cases l (0, none)
  have hfst : (winnerFold l).1 = l.foldl (fun a p => max a p.2) 0 :=
    winnerFold_fst_aux l (0, none)
  have hbound : ∀ p ∈ l, p.2 ≤ (winnerFold l).1 := by
    rw [hfst]
    exact mem_le_foldMax l 0
  have hattain : (winnerFold l).1 = 0 ∨ ∃ p ∈ l, p.2 = (winnerFold l).1 := by
    rw [hfst]
    rcases foldMax_attained l 0 with h | ⟨p, hp, he⟩
    · exact Or.inl h
    · exact Or.inr ⟨p, hp, he.symm⟩
  have hlnd : l.Nodup := List.Nodup.of_map Prod.fst hnd
  constructor
  · intro h
    by_cases h1 : ((l.filter
        (fun p => decide (p.2 = (winnerFold l).1 ∧ 0 < p.2))).map Prod.fst).length > 1
    · rw [computeWinner, if_pos h1] at h
      simp at h
    · by_cases h2 : (winnerFold l).1 = 0
      · rw [computeWinner, if_neg h1, if_pos h2] at h
        simp at h
      · rw [computeWinner, if_neg h1, if_neg h2] at h
        rcases hcases with hc | ⟨p, hp, he⟩
        · rw [hc] at h
          simp at h
        · obtain ⟨p1, p2⟩ := p
          rw [he] at h
          have hp1 : p1 = o := Option.some.inj h
          rw [hp1] at he hp
          have hMfst : (winnerFold l).1 = p2 := by rw [he]
          refine ⟨p2, hp, ?_, ?_⟩
          · have := h2
            rw [hMfst] at this
            omega
          · intro q hq hqo
            have hle : q.2 ≤ p2 := by
              have := hbound q hq
              rw [hMfst] at this
              exact this
            rcases Nat.lt_or_ge q.2 p2 with hlt | hge
            · exact hlt
            · exfalso
              have hqe : q.2 = p2 := Nat.le_antisymm hle hge
              have hp2pos : 0 < p2 := by
                have := h2
                rw [hMfst] at this
                omega
              have hmq : q ∈ l.filter
                  (fun p => decide (p.2 = (winnerFold l).1 ∧ 0 < p.2)) := by
                rw [List.mem_filter]
                refine ⟨hq, ?_⟩
                rw [decide_eq_true_eq, hMfst]
                exact ⟨hqe, by omega⟩
              have hmo : (o, p2) ∈ l.filter
                  (fun p => decide (p.2 = (winnerFold l).1 ∧ 0 < p.2)) := by
                rw [List.mem_filter]
                refine ⟨hp, ?_⟩
                rw [decide_eq_true_eq, hMfst]
                exact ⟨rfl, hp2pos⟩
              have hne2 : q ≠ (o, p2) := by
                intro he2
                exact hqo (congrArg Prod.fst he2)
              have hlen := one_lt_length_of_two_mem hmq hmo hne2
              rw [List.length_map] at h1
              exact h1 hlen
  · rintro ⟨t, hot, ht, hmax⟩
    have hMt : (winnerFold l).1 = t := by
      have htle : t ≤ (winnerFold l).1 := hbound (o, t) hot
      rcases hattain with h0 | ⟨q, hq, hqM⟩
      · omega
      · by_cases hq1 : q.1 = o
        · have hqmem : (o, q.2) ∈ l := by
            rw [← hq1]
            exact hq
          have := nodup_keys_val_eq hnd hqmem hot
          omega
        · have := hmax q hq hq1
          omega
    have hM0 : ¬ (winnerFold l).1 = 0 := by omega
    have hallf : ∀ x ∈ l.filter
        (fun p => decide (p.2 = (winnerFold l).1 ∧ 0 < p.2)), x = (o, t) := by
      intro x hx
      rw [List.mem_filter, decide_eq_true_eq] at hx
      have hx1 : x.1 = o := by
        by_contra hxo
        have := hmax x hx.1 hxo
        omega
      have hx2 : x.2 = t := by
        have := hx.2.1
        omega
      obtain ⟨a, b⟩ := x
      simp only at hx1 hx2
      rw [hx1, hx2]
    have hfnd : (l.filter
        (fun p => decide (p.2 = (winnerFold l).1 ∧ 0 < p.2))).Nodup :=
      List.Nodup.filter _ hlnd
    have hlen1 : ¬ ((l.filter
        (fun p => decide (p.2 = (winnerFold l).1 ∧ 0 < p.2))).map Prod.fst).length > 1 := by
      rw [List.length_map]
      have := length_le_one_of_all_eq hfnd hallf
      omega
    rw [computeWinner, if_neg hlen1, if_neg hM0]
    rcases hcases with hc | ⟨p, hp, he⟩
    · exfalso
      apply hM0
      rw [hc]
    · have hpt : p.2 = t := by
        have : (winnerFold l).1 = p.2 := by rw [he]
        omega
      have hp1 : p.1 = o := by
        by_contra hpo
        have := hmax p hp hpo
        omega
      rw [he, hp1]

theorem keysOf_foldl_initStep_nodup (proposalOptions : List ProposalOption) :
    ∀ m : List (Nat × Nat), (keysOf m).Nodup →
      (keysOf (proposalOptions.foldl initStep m)).Nodup := by
  induction proposalOptions with
  | nil => intro m hm; exact hm
  | cons opt rest ih =>
    intro m hm
    exact ih (initStep m opt) (keysOf_jsSet_nodup m opt.option_number 0 hm)

theorem keysOf_processVotes_nodup (votingPowers : List (Wallet × Nat))
    (votes : List (Wallet × Nat)) :
    ∀ st : VoteFoldState, (keysOf st.optionTallies).Nodup →
      (keysOf (votes.foldl (processVote votingPowers) st).optionTallies).Nodup := by
  induction votes with
  | nil => intro st hst; exact hst
  | cons v rest ih =>
    intro st hst
    exact ih (processVote votingPowers st v)
      (keysOf_jsSet_nodup st.optionTallies v.2 _ hst)

theorem calculateWeightedResults_tallies_nodup (votingPowers votes : List (Wallet × Nat))
    (proposalOptions : List ProposalOption) :
    (keysOf (calculateWeightedResults votingPowers votes proposalOptions).optionTallies).Nodup := by
  show (keysOf (votes.foldl (processVote votingPowers)
    ⟨initTallies proposalOptions, [], 0, 0⟩).optionTallies).Nodup
  exact keysOf_processVotes_nodup votingPowers votes _
    (keysOf_foldl_initStep_nodup proposalOptions [] (by simp [keysOf]))

/-- C3: `calculateWeightedResults` returns `some o` as the winning option
exactly when `o` has an entry in the option tallies whose value is positive
and strictly greater than every other option's tally; it returns `none`
when two or more options share the positive maximum and when the maximum is
zero (zero maximum makes the positivity conjunct unsatisfiable). -/
theorem C3_winner_characterization (votingPowers votes : List (Wallet × Nat))
    (proposalOptions : List ProposalOption) (o : Nat) :
    (calculateWeightedResults votingPowers votes proposalOptions).winningOption = some o ↔
      ∃ t, (o, t) ∈ (calculateWeightedResults votingPowers votes proposalOptions).optionTallies ∧
        0 < t ∧
        ∀ p ∈ (calculateWeightedResults votingPowers votes proposalOptions).optionTallies,
          p.1 ≠ o → p.2 < t :=
  computeWinner_spec
    (calculateWeightedResults votingPowers votes proposalOptions).optionTallies
    (calculateWeightedResults_tallies_nodup votingPowers votes proposalOptions) o

/-- Witness for C3: direct voter c (power 3) votes option 1, d (power 1)
votes option 2 — option 1 wins. -/
theorem C3_winner_characterization_witness :
    (calculateWeightedResults [("0xc", 3), ("0xd", 1)] [("0xc", 1), ("0xd", 2)]
      [⟨1, "yes"⟩, ⟨2, "no"⟩]).winningOption = some 1 :=
  (C3_winner_characterization [("0xc", 3), ("0xd", 1)] [("0xc", 1), ("0xd", 2)]
    [⟨1, "yes"⟩, ⟨2, "no"⟩] 1).mpr ⟨3, by decide, by decide, by decide⟩

theorem totalCastSum_cons (votingPowers : List (Wallet × Nat)) (v : Wallet × Nat)
    (votes : List (Wallet × Nat)) :
    totalCastSum votingPowers (v :: votes) =
      powerOf votingPowers (toLowerCase v.1) + totalCastSum votingPowers votes := by
  simp [totalCastSum]

theorem castPowerSum_cons (votingPowers : List (Wallet × Nat)) (v : Wallet × Nat)
    (votes : List (Wallet × Nat)) (o : Nat) :
    castPowerSum votingPowers (v :: votes) o =
      (if v.2 = o then powerOf votingPowers (toLowerCase v.1) else 0) +
        castPowerSum votingPowers votes o := by
  rw [castPowerSum, castPowerSum, List.filter_cons]
  by_cases h : v.2 = o
  · simp [h, totalCastSum_cons]
  · simp [h]

theorem mem_keysOf_jsSet_self {α β : Type} [DecidableEq α] (m : List (α × β))
    (k : α) (v : β) : k ∈ keysOf (jsSet m k v) := by
  by_cases h : k ∈ keysOf m
  · rw [keysOf_jsSet_of_mem _ _ _ h]
    exact h
  · rw [jsSet_of_not_mem _ _ _ h, keysOf_append]
    simp [keysOf]

theorem mem_keysOf_jsSet_of_mem {α β : Type} [DecidableEq α] {m : List (α × β)}
    {k₁ : α} (k : α) (v : β) (h : k₁ ∈ keysOf m) : k₁ ∈ keysOf (jsSet m k v) := by
  by_cases hk : k ∈ keysOf m
  · rw [keysOf_jsSet_of_mem _ _ _ hk]
    exact h
  · rw [jsSet_of_not_mem _ _ _ hk, keysOf_append]
    exact List.mem_append_left _ h

theorem processVotes_mem (votingPowers : List (Wallet × Nat)) (o : Nat) :
    ∀ (votes : List (Wallet × Nat)) (st : VoteFoldState),
      (o ∈ votes.map Prod.snd ∨ o ∈ keysOf st.optionTallies) →
      o ∈ keysOf (votes.foldl (processVote votingPowers) st).optionTallies := by
  intro votes
  induction votes with
  | nil =>
    intro st h
    rcases h with h | h
    · simp at h
    · exact h
  | cons v rest ih =>
    intro st h
    rw [List.foldl_cons]
    apply ih (processVote votingPowers st v)
    rcases h with h | h
    · rw [List.map_cons, List.mem_cons] at h
      rcases h with h | h
      · refine Or.inr ?_
        show o ∈ keysOf (jsSet st.optionTallies v.2 _)
        rw [h]
        exact mem_keysOf_jsSet_self _ _ _
      · exact Or.inl h
    · refine Or.inr ?_
      show o ∈ keysOf (jsSet st.optionTallies v.2 _)
      exact mem_keysOf_jsSet_of_mem _ _ h

theorem processVotes_tally (votingPowers : List (Wallet × Nat)) (o : Nat) :
    ∀ (votes : List (Wallet × Nat)) (st : VoteFoldState),
      (hget (votes.foldl (processVote votingPowers) st).optionTallies o).getD 0 =
        (hget st.optionTallies o).getD 0 + castPowerSum votingPowers votes o := by
  intro votes
  induction votes with
  | nil =>
    intro st
    simp [castPowerSum, totalCastSum]
  | cons v rest ih =>
    intro st
    rw [List.foldl_cons, ih (processVote votingPowers st v), castPowerSum_cons]
    have hstep : (hget (processVote votingPowers st v).optionTallies o).getD 0 =
        (hget st.optionTallies o).getD 0 +
          (if v.2 = o then powerOf votingPowers (toLowerCase v.1) else 0) := by
      show (hget (jsSet st.optionTallies v.2
        ((hget st.optionTallies v.2).getD 0 +
          powerOf votingPowers (toLowerCase v.1))) o).getD 0 = _
      by_cases h : v.2 = o
      · rw [h, hget_jsSet_self]
        simp
      · rw [hget_jsSet_ne _ _ _ _ (fun hh => h hh.symm), if_neg h]
        omega
    rw [hstep]
    omega

theorem processVotes_cast (votingPowers : List (Wallet × Nat)) :
    ∀ (votes : List (Wallet × Nat)) (st : VoteFoldState),
      (votes.foldl (processVote votingPowers) st).totalVotesCast =
        st.totalVotesCast + totalCastSum votingPowers votes := by
  intro votes
  induction votes with
  | nil =>
    intro st
    simp [totalCastSum]
  | cons v rest ih =>
    intro st
    rw [List.foldl_cons, ih (processVote votingPowers st v), totalCastSum_cons]
    have hstep : (processVote votingPowers st v).totalVotesCast =
        st.totalVotesCast + powerOf votingPowers (toLowerCase v.1) := rfl
    rw [hstep]
    omega

theorem initStep_fold_getD (proposalOptions : List ProposalOption) (o : Nat) :
    ∀ m : List (Nat × Nat), (hget m o).getD 0 = 0 →
      (hget (proposalOptions.foldl initStep m) o).getD 0 = 0 := by
  induction proposalOptions with
  | nil => intro m hm; exact hm
  | cons opt rest ih =>
    intro m hm
    apply ih (initStep m opt)
    rw [initStep]
    by_cases h : opt.option_number = o
    · rw [h, hget_jsSet_self]
      rfl
    · rw [hget_jsSet_ne _ _ _ _ (fun hh => h hh.symm)]
      exact hm

theorem initTallies_getD (proposalOptions : List ProposalOption) (o : Nat) :
    (hget (initTallies proposalOptions) o).getD 0 = 0 :=
  initStep_fold_getD proposalOptions o [] (by simp [hget])

/-- C9: a vote cast for an option number absent from the declared option
list still gets a tally entry — created at 0 and incremented by the voter's
power, so the entry equals the summed power cast for that option — and that
power is also counted in the cast-power total; moreover such an undeclared
option can win, as the closed conjuncts show (option 7 is undeclared yet
returned as the winning option). -/
theorem C9_undeclared_option_tallied :
    (∀ (votingPowers votes : List (Wallet × Nat)) (proposalOptions : List ProposalOption)
        (w : Wallet) (o : Nat),
      (w, o) ∈ votes →
      o ∉ proposalOptions.map ProposalOption.option_number →
      hget (calculateWeightedResults votingPowers votes proposalOptions).optionTallies o =
        some (castPowerSum votingPowers votes o) ∧
      (calculateWeightedResults votingPowers votes proposalOptions).totalVotesCast =
        totalCastSum votingPowers votes) ∧
    (calculateWeightedResults [("0xa", 5)] [("0xa", 7)]
      [⟨1, "yes"⟩, ⟨2, "no"⟩]).winningOption = some 7 ∧
    (7 : Nat) ∉ ([⟨1, "yes"⟩, ⟨2, "no"⟩] : List ProposalOption).map
      ProposalOption.option_number := by
  refine ⟨?_, by decide, by decide⟩
  intro votingPowers votes proposalOptions w o hv _
  constructor
  · have hmem : o ∈ keysOf (votes.foldl (processVote votingPowers)
        ⟨initTallies proposalOptions, [], 0, 0⟩).optionTallies := by
      apply processVotes_mem
      exact Or.inl (List.mem_map_of_mem Prod.snd hv)
    have hval := processVotes_tally votingPowers o votes
      ⟨initTallies proposalOptions, [], 0, 0⟩
    rw [show (VoteFoldState.mk (initTallies proposalOptions) [] 0 0).optionTallies =
      initTallies proposalOptions from rfl, initTallies_getD] at hval
    show hget (votes.foldl (processVote votingPowers)
      ⟨initTallies proposalOptions, [], 0, 0⟩).optionTallies o = _
    rw [hget_eq_getD_of_mem _ _ 0 hmem, hval]
    simp
  · show (votes.foldl (processVote votingPowers)
      ⟨initTallies proposalOptions, [], 0, 0⟩).totalVotesCast = _
    rw [processVotes_cast]
    simp

/-- Witness for C9: voter a with power 5 votes for undeclared option 7; the
tally entry for 7 equals 5 and the cast total is 5. -/
theorem C9_undeclared_option_tallied_witness :
    hget (calculateWeightedResults [("0xa", 5)] [("0xa", 7)]
      [⟨1, "yes"⟩, ⟨2, "no"⟩]).optionTallies 7 =
      some (castPowerSum [("0xa", 5)] [("0xa", 7)] 7) ∧
    (calculateWeightedResults [("0xa", 5)] [("0xa", 7)]
      [⟨1, "yes"⟩, ⟨2, "no"⟩]).totalVotesCast =
      totalCastSum [("0xa", 5)] [("0xa", 7)] :=
  C9_undeclared_option_tallied.1 [("0xa", 5)] [("0xa", 7)] [⟨1, "yes"⟩, ⟨2, "no"⟩]
    "0xa" 7 (by decide) (by decide)

/-- Witness for C6: with a nonempty prior graph, attempting to delegate
`0xAbC` to `0xabc` (the same wallet up to case) reports the trivial cycle
and leaves the store untouched. -/
theorem C6_self_delegation_rejected_witness :
    detectCyclesDFS (Store.mk [("0xc", 1)] [("0xa", "0xb")] ["0xa", "0xc"] none
        none).delegations "0xAbC" "0xabc" =
      { hasCycle := true, cyclePath := some [toLowerCase "0xAbC"],
        reason := some "Cannot delegate to yourself" } ∧
    delegateRoute (Store.mk [("0xc", 1)] [("0xa", "0xb")] ["0xa", "0xc"] none none)
        "0xAbC" "0xabc" =
      (Store.mk [("0xc", 1)] [("0xa", "0xb")] ["0xa", "0xc"] none none, false) :=
  C6_self_delegation_rejected
    (Store.mk [("0xc", 1)] [("0xa", "0xb")] ["0xa", "0xc"] none none)
    "0xAbC" "0xabc" (by decide)

/-- Witness for C8: concrete empty store and missing proposal row. -/
theorem C8_no_resolution_error_audit_witness :
    (calculateFinalResults none (Store.mk [] [] [] none none) none).success = false ∧
    ∀ r ∈ (calculateFinalResults none (Store.mk [] [] [] none none) none).auditWrites,
      r.status ≠ "completed" := by
  have h := C8_no_resolution_error_audit (Store.mk [] [] [] none none) none
  exact ⟨h.1, h.2.2⟩

/-- Witness for C10: removing wallet a's vote keeps b's vote and the
participant set intact while a's vote reads back none. -/
theorem C10_remove_frame_witness :
    (removeVote (Store.mk [("0xa", 1), ("0xb", 2)] [] ["0xa", "0xb"] none none)
      "0xa").delegations = [] ∧
    getUserVote (removeVote (Store.mk [("0xa", 1), ("0xb", 2)] [] ["0xa", "0xb"] none none)
      "0xa") "0xa" = none ∧
    getUserVote (removeVote (Store.mk [("0xa", 1), ("0xb", 2)] [] ["0xa", "0xb"] none none)
        "0xa") "0xb" =
      getUserVote (Store.mk [("0xa", 1), ("0xb", 2)] [] ["0xa", "0xb"] none none) "0xb" ∧
    (removeVote (Store.mk [("0xa", 1), ("0xb", 2)] [] ["0xa", "0xb"] none none)
      "0xa").participants = ["0xa", "0xb"] := by
  have h := C10_remove_frame
    (Store.mk [("0xa", 1), ("0xb", 2)] [] ["0xa", "0xb"] none none) "0xa"
  exact ⟨h.1, h.2.2.2.2.1, h.2.2.2.2.2.1 "0xb" (by decide), h.2.1⟩
